import Mathlib

/-!
Verification of the chess-AI engine core of this repository: the material
evaluator (`evaluateBoard`), the alpha-beta minimax search (`minimax`) and
the move selectors (`getRandomMove`, `getBestMove`).  Two variants of the
engine exist in the sources; they are embedded side by side as `EngineA`
(the variant exporting `getRandomMove` and `getBestMove(game, depth)`, with
piece values 1/3/3/5/9/0 and no `|| 0` guard on the table lookup) and
`EngineB` (the variant with piece values 10/30/30/50/90/900 and the `|| 0`
guard).  The chess.js `Chess` object is an external collaborator, not part
of this repository; it is modelled from the spec (section 6) as the
abstract `Engine` capability record, and the in-place `move`/`undo`
mutation as an explicit `Session` (current position plus undo stack).
JavaScript numbers occurring in the engine are embedded as `JsNum`
(an integer, one of the two infinities, or NaN, which arises from an
undefined piece-value lookup).
-/

/-- Side of a piece, chess.js `piece.color`: white or black. -/
inductive Color : Type where
  | w : Color
  | b : Color
deriving DecidableEq

/-- A piece as returned by chess.js `game.board()`: a one-character type tag
(`'p'`, `'n'`, `'b'`, `'r'`, `'q'`, `'k'` for the real game, modelled as an
arbitrary `Char` so that unknown tags can be expressed) and a color. -/
structure Piece : Type where
  type : Char
  color : Color
deriving DecidableEq

/-- The 8x8 grid returned by `game.board()`: every square optionally holds
a piece. -/
abbrev Board : Type := Fin 8 → Fin 8 → Option Piece

/-- JavaScript numbers as they occur in the engine: an integer, one of the
two infinities (the search sentinels), or NaN (produced by arithmetic on an
undefined table lookup). -/
inductive JsNum : Type where
  | nan : JsNum
  | negInf : JsNum
  | posInf : JsNum
  | val : ℤ → JsNum
deriving DecidableEq

/-- JavaScript `Math.max` on the numbers above: NaN is absorbing. -/
def jsMax : JsNum → JsNum → JsNum
  | .nan, _ => .nan
  | _, .nan => .nan
  | .posInf, _ => .posInf
  | _, .posInf => .posInf
  | .negInf, y => y
  | x, .negInf => x
  | .val a, .val b => .val (max a b)

/-- JavaScript `Math.min` on the numbers above: NaN is absorbing. -/
def jsMin : JsNum → JsNum → JsNum
  | .nan, _ => .nan
  | _, .nan => .nan
  | .negInf, _ => .negInf
  | _, .negInf => .negInf
  | .posInf, y => y
  | x, .posInf => x
  | .val a, .val b => .val (min a b)

/-- JavaScript `<=`: every comparison with NaN is false. -/
def jsLe : JsNum → JsNum → Bool
  | .nan, _ => false
  | _, .nan => false
  | .negInf, _ => true
  | _, .posInf => true
  | .posInf, _ => false
  | _, .negInf => false
  | .val a, .val b => decide (a ≤ b)

/-- JavaScript `<`: every comparison with NaN is false. -/
def jsLt : JsNum → JsNum → Bool
  | .nan, _ => false
  | _, .nan => false
  | _, .negInf => false
  | .negInf, _ => true
  | .posInf, _ => false
  | _, .posInf => true
  | .val a, .val b => decide (a < b)

/-- The result of the evaluator as a JS number: a defined sum is an
integer, an undefined lookup has poisoned the sum into NaN. -/
def jsOfEval : Option ℤ → JsNum
  | some z => JsNum.val z
  | none => JsNum.nan

/-- JavaScript `+=` on the evaluator accumulator: `none` models NaN (also
the `undefined` being added in the variant without `|| 0`), and is
absorbing. -/
def nanAdd : Option ℤ → Option ℤ → Option ℤ
  | some a, some b => some (a + b)
  | _, _ => none

/-- Extended integers used by the pure (NaN-free) verification model of
the search: integers together with the two infinities. -/
abbrev EInt : Type := WithBot (WithTop ℤ)

/-- Embedding of the integers into `EInt`. -/
def intE (z : ℤ) : EInt := ((z : WithTop ℤ) : EInt)

/-- Conversion from the pure extended integers to JS numbers. -/
def toJs (x : EInt) : JsNum :=
  WithBot.recBotCoe JsNum.negInf
    (fun y => WithTop.recTopCoe JsNum.posInf (fun z => JsNum.val z) y) x

/-- Modelled from the spec: the capability record of the external
`Position` collaborator (the chess.js `Chess` object, spec section 6),
which is not part of this repository.  `moves` enumerates legal moves as
opaque descriptors, `play` is the pure transition applied by `game.move`,
`isGameOver` and `turn` report terminal state and side to move, and
`board` is the 8x8 grid consumed by the evaluator. -/
structure Engine (π μ : Type) : Type where
  moves : π → List μ
  play : π → μ → π
  isGameOver : π → Bool
  turn : π → Color
  board : π → Board

/-- A chess.js game object in the middle of a search: the current position
plus the history stack consumed by `undo`.  By the collaborator contract
(spec sections 3 and 6) `game.undo()` restores the exact prior state, so
`game.move(m)` is modelled as pushing the old position and `game.undo()`
as popping it. -/
structure Session (π : Type) : Type where
  pos : π
  hist : List π
deriving DecidableEq

/-- Effect of `game.move(m)` on the session. -/
def pushMove {π μ : Type} (E : Engine π μ) (s : Session π) (m : μ) : Session π :=
  ⟨E.play s.pos m, s.pos :: s.hist⟩

/-- Effect of `game.undo()` on the session.  With an empty history the
behaviour of the collaborator is unspecified; the engine never calls it in
that state, and the model leaves the session unchanged there. -/
def popMove {π : Type} (s : Session π) : Session π :=
  match s.hist with
  | [] => s
  | p :: h => ⟨p, h⟩

namespace EngineA

/-- The `PIECE_VALUES` record of the first engine variant:
`{p: 1, n: 3, b: 3, r: 5, q: 9, k: 0}`; any other key is absent
(a JavaScript `Record` lookup on a missing key yields `undefined`). -/
def PIECE_VALUES : Char → Option ℤ := fun t =>
  if t = 'p' then some 1
  else if t = 'n' then some 3
  else if t = 'b' then some 3
  else if t = 'r' then some 5
  else if t = 'q' then some 9
  else if t = 'k' then some 0
  else none

/-- The `evaluateBoard` of the first variant: a double loop over the 8x8
grid accumulating `piece.color === 'w' ? value : -value`, where `value` is
the raw table lookup (no `|| 0` guard, so a missing key turns the
accumulator into NaN, modelled by `none`). -/
def evaluateBoard (board : Board) : Option ℤ :=
  (List.finRange 8).foldl
    (fun totalEvaluation row =>
      (List.finRange 8).foldl
        (fun total col =>
          match board row col with
          | some piece =>
            nanAdd total
              (match PIECE_VALUES piece.type with
               | some value => some (if piece.color = Color.w then value else -value)
               | none => none)
          | none => total)
        totalEvaluation)
    (some 0)

/-- The maximizing-player loop of `minimax`: for each move, apply it, get
the child value, undo, update the running maximum and `alpha`, and break
out of the loop as soon as `beta <= alpha`. -/
def maxLoop {π μ : Type} (E : Engine π μ)
    (child : Session π → JsNum → JsNum → JsNum × Session π) :
    List μ → Session π → JsNum → JsNum → JsNum → JsNum × Session π
  | [], s, _, _, maxEval => (maxEval, s)
  | m :: ms, s, alpha, beta, maxEval =>
    let r := child (pushMove E s m) alpha beta
    let s2 := popMove r.2
    let maxEval1 := jsMax maxEval r.1
    let alpha1 := jsMax alpha r.1
    if jsLe beta alpha1 then (maxEval1, s2)
    else maxLoop E child ms s2 alpha1 beta maxEval1

/-- The minimizing-player loop of `minimax`, mirror image of `maxLoop`. -/
def minLoop {π μ : Type} (E : Engine π μ)
    (child : Session π → JsNum → JsNum → JsNum × Session π) :
    List μ → Session π → JsNum → JsNum → JsNum → JsNum × Session π
  | [], s, _, _, minEval => (minEval, s)
  | m :: ms, s, alpha, beta, minEval =>
    let r := child (pushMove E s m) alpha beta
    let s2 := popMove r.2
    let minEval1 := jsMin minEval r.1
    let beta1 := jsMin beta r.1
    if jsLe beta1 alpha then (minEval1, s2)
    else minLoop E child ms s2 alpha beta1 minEval1

/-- The `minimax` of the first variant, state-passing over the session to
reflect the in-place `game.move`/`game.undo` mutation.  The source guard
`depth === 0 || game.isGameOver()` is split over the two depth patterns;
`depth` is a natural number (the program only ever passes 1, 2 or 3 at the
top). -/
def minimax {π μ : Type} (E : Engine π μ) :
    ℕ → Session π → JsNum → JsNum → Bool → JsNum × Session π
  | 0, s, _, _, _ => (jsOfEval (evaluateBoard (E.board s.pos)), s)
  | depth + 1, s, alpha, beta, isMaximizingPlayer =>
    if E.isGameOver s.pos then (jsOfEval (evaluateBoard (E.board s.pos)), s)
    else if isMaximizingPlayer then
      maxLoop E (fun s1 a b => minimax E depth s1 a b false)
        (E.moves s.pos) s alpha beta JsNum.negInf
    else
      minLoop E (fun s1 a b => minimax E depth s1 a b true)
        (E.moves s.pos) s alpha beta JsNum.posInf

/-- `getRandomMove`: `null` when there is no legal move, otherwise the move
at index `Math.floor(Math.random() * moves.length)`.  The random draw is
modelled by an oracle `k`, reduced modulo the length (the JS expression
always lands strictly below the length). -/
def getRandomMove {π μ : Type} (E : Engine π μ) (g : π) (k : ℕ) : Option μ :=
  if (E.moves g).length = 0 then none
  else (E.moves g)[k % (E.moves g).length]?

/-- The selection loop of `getBestMove`: apply each move, score the child
with a full-window `minimax` at `depth` (the `isMaximizingPlayer` flag is
read from the turn after the move, as in the source), undo, and keep the
move on strict improvement only; the comparison direction is re-read from
the turn of the restored position each iteration, as in the source. -/
def bestLoop {π μ : Type} (E : Engine π μ) (depth : ℕ) :
    List μ → Session π → Option μ → JsNum → Option μ × JsNum × Session π
  | [], s, bestMove, bestValue => (bestMove, bestValue, s)
  | m :: ms, s, bestMove, bestValue =>
    let r := minimax E depth (pushMove E s m) JsNum.negInf JsNum.posInf
      (decide (E.turn (pushMove E s m).pos = Color.w))
    let s2 := popMove r.2
    if E.turn s2.pos = Color.w then
      if jsLt bestValue r.1 then bestLoop E depth ms s2 (some m) r.1
      else bestLoop E depth ms s2 bestMove bestValue
    else
      if jsLt r.1 bestValue then bestLoop E depth ms s2 (some m) r.1
      else bestLoop E depth ms s2 bestMove bestValue

/-- `getBestMove(game, depth)` (default depth 3 in the source): `null` when
no legal move exists; otherwise search every move (in the order produced by
the in-place shuffle, modelled by the oracle `sh`) and return the best
move, falling back to the first move of the shuffled list if no move ever
strictly improved on the infinite sentinel. -/
def getBestMove {π μ : Type} (E : Engine π μ) (sh : List μ → List μ)
    (s : Session π) (depth : ℕ) : Option μ × Session π :=
  if (E.moves s.pos).length = 0 then (none, s)
  else
    let shuffled := sh (E.moves s.pos)
    let r := bestLoop E (depth - 1) shuffled s none
      (if E.turn s.pos = Color.w then JsNum.negInf else JsNum.posInf)
    (match r.1 with
     | some mv => some mv
     | none => shuffled.head?, r.2.2)

end EngineA

namespace EngineB

/-- The `PIECE_VALUES` record of the second engine variant:
`{p: 10, n: 30, b: 30, r: 50, q: 90, k: 900}`. -/
def PIECE_VALUES : Char → Option ℤ := fun t =>
  if t = 'p' then some 10
  else if t = 'n' then some 30
  else if t = 'b' then some 30
  else if t = 'r' then some 50
  else if t = 'q' then some 90
  else if t = 'k' then some 900
  else none

/-- The `evaluateBoard` of the second variant: the table lookup is guarded
by `|| 0`, so a missing key contributes 0 and the total is always a plain
integer. -/
def evaluateBoard (board : Board) : ℤ :=
  (List.finRange 8).foldl
    (fun totalEvaluation row =>
      (List.finRange 8).foldl
        (fun total col =>
          match board row col with
          | some piece =>
            total + (if piece.color = Color.w then (PIECE_VALUES piece.type).getD 0
                     else -((PIECE_VALUES piece.type).getD 0))
          | none => total)
        totalEvaluation)
    0

end EngineB

/-- Signed contribution of one square under a value table: the table value
(0 when absent) counted positively for White and negatively for Black. -/
def signedVal (tbl : Char → Option ℤ) : Option Piece → ℤ
  | none => 0
  | some p => if p.color = Color.w then (tbl p.type).getD 0 else -((tbl p.type).getD 0)

/-- Material score of a board under a value table: sum of the signed
per-square contributions. -/
def matScore (tbl : Char → Option ℤ) (b : Board) : ℤ :=
  ∑ r : Fin 8, ∑ c : Fin 8, signedVal tbl (b r c)

/-- All pieces of the board have a type present in the value table. -/
def known (tbl : Char → Option ℤ) (b : Board) : Prop :=
  ∀ r c : Fin 8, ((b r c).all fun p => (tbl p.type).isSome) = true

instance (tbl : Char → Option ℤ) (b : Board) : Decidable (known tbl b) := by
  unfold known; infer_instance

/-- Flip a color. -/
def swapColor : Color → Color
  | Color.w => Color.b
  | Color.b => Color.w

/-- Swap the side of every piece of a board. -/
def colorSwap (b : Board) : Board :=
  fun r c => (b r c).map fun p => ⟨p.type, swapColor p.color⟩

/-- Signed king indicator of a square: +1 for a white king, -1 for a black
king, 0 otherwise. -/
def kingSign : Option Piece → ℤ
  | none => 0
  | some p => if p.type = 'k' then (if p.color = Color.w then 1 else -1) else 0

/-- White king count minus black king count. -/
def kingDiff (b : Board) : ℤ :=
  ∑ r : Fin 8, ∑ c : Fin 8, kingSign (b r c)

/-- Indicator of a king of the given color on a square. -/
def kingIndicator (col : Color) : Option Piece → ℤ
  | none => 0
  | some p => if p.type = 'k' ∧ p.color = col then 1 else 0

/-- Number of kings of the given color on the board. -/
def kingCount (col : Color) (b : Board) : ℤ :=
  ∑ r : Fin 8, ∑ c : Fin 8, kingIndicator col (b r c)

/-- Every piece on the board is a king. -/
def onlyKings (b : Board) : Prop :=
  ∀ r c : Fin 8, ((b r c).all fun p => p.type = 'k') = true

instance (b : Board) : Decidable (onlyKings b) := by
  unfold onlyKings; infer_instance

/-- Both sides are reduced to bare kings: only kings on the board, exactly
one of each color. -/
def bareKings (b : Board) : Prop :=
  onlyKings b ∧ kingCount Color.w b = 1 ∧ kingCount Color.b b = 1

instance (b : Board) : Decidable (bareKings b) := by
  unfold bareKings; infer_instance

/-- Remove whatever stands on one square. -/
def removeAt (b : Board) (r c : Fin 8) : Board :=
  fun r2 c2 => if r2 = r ∧ c2 = c then none else b r2 c2

/-- Contribution of one square to the accumulator of
`EngineA.evaluateBoard`: `some 0` for an empty square (the loop skips it),
the signed table value for a known piece, and `none` (NaN) for a piece
whose type is absent from the table. -/
def sqA (b : Board) (r c : Fin 8) : Option ℤ :=
  match b r c with
  | some p =>
    match EngineA.PIECE_VALUES p.type with
    | some v => some (if p.color = Color.w then v else -v)
    | none => none
  | none => some 0

/-- The maximizing loop of the pure (NaN-free) alpha-beta model. -/
def maxLoopP {μ : Type} (f : μ → EInt → EInt → EInt) :
    List μ → EInt → EInt → EInt → EInt
  | [], _, _, best => best
  | m :: ms, alpha, beta, best =>
    let e := f m alpha beta
    let best1 := max best e
    let alpha1 := max alpha e
    if beta ≤ alpha1 then best1 else maxLoopP f ms alpha1 beta best1

/-- The minimizing loop of the pure alpha-beta model. -/
def minLoopP {μ : Type} (f : μ → EInt → EInt → EInt) :
    List μ → EInt → EInt → EInt → EInt
  | [], _, _, best => best
  | m :: ms, alpha, beta, best =>
    let e := f m alpha beta
    let best1 := min best e
    let beta1 := min beta e
    if beta1 ≤ alpha then best1 else minLoopP f ms alpha beta1 best1

/-- Pure model of the alpha-beta search of `EngineA.minimax`: same
recursion and same pruning cutoff, over extended integers, with the leaf
value given by the material sum (which coincides with `evaluateBoard` on
boards whose piece types are all in the table). -/
def alphabeta {π μ : Type} (E : Engine π μ) :
    ℕ → π → EInt → EInt → Bool → EInt
  | 0, g, _, _, _ => intE (matScore EngineA.PIECE_VALUES (E.board g))
  | depth + 1, g, alpha, beta, isMax =>
    if E.isGameOver g then intE (matScore EngineA.PIECE_VALUES (E.board g))
    else if isMax then
      maxLoopP (fun m a b => alphabeta E depth (E.play g m) a b false)
        (E.moves g) alpha beta ⊥
    else
      minLoopP (fun m a b => alphabeta E depth (E.play g m) a b true)
        (E.moves g) alpha beta ⊤

/-- Modelled from the spec: the exhaustive, pruning-disabled full-width
minimax traversal of the same game tree (spec section 8, alpha-beta result
equivalence), against which the pruned search is compared. -/
def fullMinimax {π μ : Type} (E : Engine π μ) : ℕ → π → Bool → EInt
  | 0, g, _ => intE (matScore EngineA.PIECE_VALUES (E.board g))
  | depth + 1, g, isMax =>
    if E.isGameOver g then intE (matScore EngineA.PIECE_VALUES (E.board g))
    else if isMax then
      ((E.moves g).map (fun m => fullMinimax E depth (E.play g m) false)).foldl max ⊥
    else
      ((E.moves g).map (fun m => fullMinimax E depth (E.play g m) true)).foldl min ⊤

/-- Fuel-indexed maximizing loop, used to express termination of the
search: the child call may report fuel exhaustion. -/
def maxLoopF {π μ : Type} (E : Engine π μ)
    (child : Session π → JsNum → JsNum → Option (JsNum × Session π)) :
    List μ → Session π → JsNum → JsNum → JsNum → Option (JsNum × Session π)
  | [], s, _, _, maxEval => some (maxEval, s)
  | m :: ms, s, alpha, beta, maxEval =>
    match child (pushMove E s m) alpha beta with
    | none => none
    | some r =>
      let s2 := popMove r.2
      let maxEval1 := jsMax maxEval r.1
      let alpha1 := jsMax alpha r.1
      if jsLe beta alpha1 then some (maxEval1, s2)
      else maxLoopF E child ms s2 alpha1 beta maxEval1

/-- Fuel-indexed minimizing loop. -/
def minLoopF {π μ : Type} (E : Engine π μ)
    (child : Session π → JsNum → JsNum → Option (JsNum × Session π)) :
    List μ → Session π → JsNum → JsNum → JsNum → Option (JsNum × Session π)
  | [], s, _, _, minEval => some (minEval, s)
  | m :: ms, s, alpha, beta, minEval =>
    match child (pushMove E s m) alpha beta with
    | none => none
    | some r =>
      let s2 := popMove r.2
      let minEval1 := jsMin minEval r.1
      let beta1 := jsMin beta r.1
      if jsLe beta1 alpha then some (minEval1, s2)
      else minLoopF E child ms s2 alpha beta1 minEval1

/-- Fuel-indexed operational model of `EngineA.minimax`: each recursive
call consumes one unit of fuel and `none` reports fuel exhaustion, so a
`some` result witnesses that the recursion terminates within the given
call-stack budget. -/
def minimaxFuel {π μ : Type} (E : Engine π μ) :
    ℕ → ℕ → Session π → JsNum → JsNum → Bool → Option (JsNum × Session π)
  | 0, _, _, _, _, _ => none
  | fuel + 1, depth, s, alpha, beta, isMax =>
    if depth = 0 ∨ E.isGameOver s.pos = true then
      some (jsOfEval (EngineA.evaluateBoard (E.board s.pos)), s)
    else if isMax then
      maxLoopF E (fun s1 a b => minimaxFuel E fuel (depth - 1) s1 a b false)
        (E.moves s.pos) s alpha beta JsNum.negInf
    else
      minLoopF E (fun s1 a b => minimaxFuel E fuel (depth - 1) s1 a b true)
        (E.moves s.pos) s alpha beta JsNum.posInf

/-- Material score (first-variant table) of the board reached by playing
one move from a position. -/
def childScore {π μ : Type} (E : Engine π μ) (g : π) (m : μ) : ℤ :=
  matScore EngineA.PIECE_VALUES (E.board (E.play g m))

/-- The empty board. -/
def emptyBoard : Board := fun _ _ => none

/-- A single white pawn in a corner. -/
def wPawnBoard : Board :=
  fun r c => if r = 0 ∧ c = 0 then some ⟨'p', Color.w⟩ else none

/-- A single white king in a corner. -/
def wKingBoard : Board :=
  fun r c => if r = 0 ∧ c = 0 then some ⟨'k', Color.w⟩ else none

/-- Bare kings: one white king and one black king. -/
def kingsBoard : Board :=
  fun r c =>
    if r = 0 ∧ c = 0 then some ⟨'k', Color.w⟩
    else if r = 7 ∧ c = 7 then some ⟨'k', Color.b⟩
    else none

/-- Bare kings plus one white pawn. -/
def kingsPawnBoard : Board :=
  fun r c =>
    if r = 0 ∧ c = 0 then some ⟨'k', Color.w⟩
    else if r = 7 ∧ c = 7 then some ⟨'k', Color.b⟩
    else if r = 1 ∧ c = 0 then some ⟨'p', Color.w⟩
    else none

/-- A board holding one piece whose type tag is absent from both value
tables. -/
def unknownBoard : Board :=
  fun r c => if r = 0 ∧ c = 0 then some ⟨'z', Color.w⟩ else none

/-- A white pawn plus a black piece of unknown type. -/
def pawnUnknownBoard : Board :=
  fun r c =>
    if r = 0 ∧ c = 0 then some ⟨'p', Color.w⟩
    else if r = 1 ∧ c = 1 then some ⟨'z', Color.b⟩
    else none

/-- A one-position engine whose game is already over, on the empty board:
concrete instantiation of the collaborator interface. -/
def trivEngine : Engine Unit ℕ :=
  ⟨fun _ => [], fun _ _ => (), fun _ => true, fun _ => Color.w, fun _ => emptyBoard⟩

/-- A two-position engine: the start position (encoded `false`) has two
legal moves, both leading to the terminal position (encoded `true`) whose
board holds one white pawn. -/
def demoEngine : Engine Bool ℕ :=
  ⟨fun g => if g then [] else [0, 1],
   fun _ _ => true,
   fun g => g,
   fun _ => Color.w,
   fun g => if g then wPawnBoard else emptyBoard⟩

/-! Basic lemmas about the extended integers and their JS images. -/

theorem toJs_bot : toJs (⊥ : EInt) = JsNum.negInf := rfl

theorem toJs_top : toJs (⊤ : EInt) = JsNum.posInf := rfl

theorem toJs_intE (z : ℤ) : toJs (intE z) = JsNum.val z := rfl

theorem eint_cases (a : EInt) : a = ⊥ ∨ a = ⊤ ∨ ∃ z : ℤ, a = intE z := by
  induction a using WithBot.recBotCoe with
  | bot => exact Or.inl rfl
  | coe y =>
    induction y using WithTop.recTopCoe with
    | top => exact Or.inr (Or.inl rfl)
    | coe z => exact Or.inr (Or.inr ⟨z, rfl⟩)

theorem intE_le_intE {a b : ℤ} : intE a ≤ intE b ↔ a ≤ b := by
  simp [intE]

theorem intE_lt_intE {a b : ℤ} : intE a < intE b ↔ a < b := by
  simp [intE]

theorem bot_lt_intE (z : ℤ) : (⊥ : EInt) < intE z := WithBot.bot_lt_coe _

theorem intE_lt_top (z : ℤ) : intE z < (⊤ : EInt) := by
  show ((z : WithTop ℤ) : EInt) < ((⊤ : WithTop ℤ) : EInt)
  exact WithBot.coe_lt_coe.mpr (WithTop.coe_lt_top z)

theorem emax_bot_left (a : EInt) : max ⊥ a = a := max_eq_right bot_le

theorem emax_bot_right (a : EInt) : max a ⊥ = a := max_eq_left bot_le

theorem emax_top_left (a : EInt) : max ⊤ a = ⊤ := max_eq_left le_top

theorem emax_top_right (a : EInt) : max a ⊤ = ⊤ := max_eq_right le_top

theorem emin_top_left (a : EInt) : min ⊤ a = a := min_eq_right le_top

theorem emin_top_right (a : EInt) : min a ⊤ = a := min_eq_left le_top

theorem emin_bot_left (a : EInt) : min ⊥ a = ⊥ := min_eq_left bot_le

theorem emin_bot_right (a : EInt) : min a ⊥ = ⊥ := min_eq_right bot_le

theorem intE_max (a b : ℤ) : max (intE a) (intE b) = intE (max a b) := by
  rcases le_total a b with h | h
  · rw [max_eq_right h, max_eq_right (intE_le_intE.mpr h)]
  · rw [max_eq_left h, max_eq_left (intE_le_intE.mpr h)]

theorem intE_min (a b : ℤ) : min (intE a) (intE b) = intE (min a b) := by
  rcases le_total a b with h | h
  · rw [min_eq_left h, min_eq_left (intE_le_intE.mpr h)]
  · rw [min_eq_right h, min_eq_right (intE_le_intE.mpr h)]

theorem jsMax_toJs (a b : EInt) : jsMax (toJs a) (toJs b) = toJs (max a b) := by
  rcases eint_cases a with ha | ha | ⟨x, ha⟩ <;> subst ha <;>
    rcases eint_cases b with hb | hb | ⟨y, hb⟩ <;> subst hb <;>
    simp [jsMax, toJs_bot, toJs_top, toJs_intE, intE_max, max_self,
      emax_bot_left, emax_bot_right, emax_top_left, emax_top_right]

theorem jsMin_toJs (a b : EInt) : jsMin (toJs a) (toJs b) = toJs (min a b) := by
  rcases eint_cases a with ha | ha | ⟨x, ha⟩ <;> subst ha <;>
    rcases eint_cases b with hb | hb | ⟨y, hb⟩ <;> subst hb <;>
    simp [jsMin, toJs_bot, toJs_top, toJs_intE, intE_min, min_self,
      emin_bot_left, emin_bot_right, emin_top_left, emin_top_right]

theorem jsLe_toJs (a b : EInt) : jsLe (toJs a) (toJs b) = decide (a ≤ b) := by
  rcases eint_cases a with ha | ha | ⟨x, ha⟩ <;> subst ha <;>
    rcases eint_cases b with hb | hb | ⟨y, hb⟩ <;> subst hb
  · exact (decide_eq_true bot_le).symm
  · exact (decide_eq_true bot_le).symm
  · exact (decide_eq_true bot_le).symm
  · exact (decide_eq_false (not_le_of_lt bot_lt_top)).symm
  · exact (decide_eq_true le_rfl).symm
  · exact (decide_eq_false (not_le_of_lt (intE_lt_top y))).symm
  · exact (decide_eq_false (not_le_of_lt (bot_lt_intE x))).symm
  · exact (decide_eq_true le_top).symm
  · show decide (x ≤ y) = decide (intE x ≤ intE y)
    exact (decide_eq_decide.mpr intE_le_intE).symm

theorem jsLt_toJs (a b : EInt) : jsLt (toJs a) (toJs b) = decide (a < b) := by
  rcases eint_cases a with ha | ha | ⟨x, ha⟩ <;> subst ha <;>
    rcases eint_cases b with hb | hb | ⟨y, hb⟩ <;> subst hb
  · exact (decide_eq_false (lt_irrefl _)).symm
  · exact (decide_eq_true bot_lt_top).symm
  · exact (decide_eq_true (bot_lt_intE y)).symm
  · exact (decide_eq_false (not_lt_of_le bot_le)).symm
  · exact (decide_eq_false (lt_irrefl _)).symm
  · exact (decide_eq_false (not_lt_of_le le_top)).symm
  · exact (decide_eq_false (not_lt_of_le bot_le)).symm
  · exact (decide_eq_true (intE_lt_top x)).symm
  · show decide (x < y) = decide (intE x < intE y)
    exact (decide_eq_decide.mpr intE_lt_intE).symm

/-! Lemmas about the NaN-aware accumulator. -/

theorem nanAdd_none_right (a : Option ℤ) : nanAdd a none = none := by
  cases a <;> rfl

theorem nanAdd_none_left (a : Option ℤ) : nanAdd none a = none := by
  cases a <;> rfl

theorem nanAdd_zero_left (a : Option ℤ) : nanAdd (some 0) a = a := by
  cases a <;> simp [nanAdd]

theorem nanAdd_assoc (a b c : Option ℤ) :
    nanAdd (nanAdd a b) c = nanAdd a (nanAdd b c) := by
  cases a <;> cases b <;> cases c <;> simp [nanAdd, add_assoc]

theorem foldl_nanAdd_none {α : Type} (f : α → Option ℤ) :
    ∀ l : List α, l.foldl (fun t x => nanAdd t (f x)) none = none := by
  intro l
  induction l with
  | nil => rfl
  | cons m ms ih => simpa [nanAdd_none_left] using ih

theorem foldl_nanAdd_shift {α : Type} (f : α → Option ℤ) :
    ∀ (l : List α) (acc : Option ℤ),
      l.foldl (fun t x => nanAdd t (f x)) acc
        = nanAdd acc (l.foldl (fun t x => nanAdd t (f x)) (some 0)) := by
  intro l
  induction l with
  | nil => intro acc; cases acc <;> simp [nanAdd]
  | cons m ms ih =>
    intro acc
    have h1 : (m :: ms).foldl (fun t x => nanAdd t (f x)) acc
        = ms.foldl (fun t x => nanAdd t (f x)) (nanAdd acc (f m)) := rfl
    have h2 : (m :: ms).foldl (fun t x => nanAdd t (f x)) (some 0)
        = ms.foldl (fun t x => nanAdd t (f x)) (nanAdd (some 0) (f m)) := rfl
    rw [h1, h2, ih (nanAdd acc (f m)), ih (nanAdd (some 0) (f m)),
      nanAdd_zero_left, nanAdd_assoc]

theorem foldl_nanAdd_known {α : Type} (f : α → Option ℤ) (g : α → ℤ) :
    ∀ l : List α, (∀ x ∈ l, f x = some (g x)) →
      l.foldl (fun t x => nanAdd t (f x)) (some 0) = some ((l.map g).sum) := by
  intro l
  induction l with
  | nil => intro _; rfl
  | cons m ms ih =>
    intro h
    have h1 : (m :: ms).foldl (fun t x => nanAdd t (f x)) (some 0)
        = ms.foldl (fun t x => nanAdd t (f x)) (nanAdd (some 0) (f m)) := rfl
    rw [h1, nanAdd_zero_left, h m (List.mem_cons_self m ms),
      foldl_nanAdd_shift, ih (fun x hx => h x (List.mem_cons_of_mem m hx))]
    simp [nanAdd]

theorem foldl_nanAdd_unknown {α : Type} (f : α → Option ℤ) :
    ∀ l : List α, (∃ x ∈ l, f x = none) →
      ∀ acc : Option ℤ, l.foldl (fun t x => nanAdd t (f x)) acc = none := by
  intro l
  induction l with
  | nil => rintro ⟨x, hx, _⟩; exact absurd hx (List.not_mem_nil x)
  | cons m ms ih =>
    rintro ⟨x, hx, hfx⟩ acc
    rcases List.mem_cons.mp hx with h | h
    · have hfm : f m = none := h ▸ hfx
      have h1 : (m :: ms).foldl (fun t x => nanAdd t (f x)) acc
          = ms.foldl (fun t x => nanAdd t (f x)) (nanAdd acc (f m)) := rfl
      rw [h1, hfm, nanAdd_none_right, foldl_nanAdd_none]
    · have h1 : (m :: ms).foldl (fun t x => nanAdd t (f x)) acc
          = ms.foldl (fun t x => nanAdd t (f x)) (nanAdd acc (f m)) := rfl
      rw [h1, ih ⟨x, h, hfx⟩]

theorem foldl_add_shift {α : Type} (g : α → ℤ) :
    ∀ (l : List α) (acc : ℤ),
      l.foldl (fun t x => t + g x) acc = acc + (l.map g).sum := by
  intro l
  induction l with
  | nil => intro acc; simp
  | cons m ms ih =>
    intro acc
    have h1 : (m :: ms).foldl (fun t x => t + g x) acc
        = ms.foldl (fun t x => t + g x) (acc + g m) := rfl
    rw [h1, ih (acc + g m)]
    simp [add_assoc]

/-! Characterization of the two evaluators as signed material sums. -/

theorem evalA_inner (b : Board) (row : Fin 8) (acc : Option ℤ) :
    (List.finRange 8).foldl
      (fun total col =>
        match b row col with
        | some piece =>
          nanAdd total
            (match EngineA.PIECE_VALUES piece.type with
             | some value => some (if piece.color = Color.w then value else -value)
             | none => none)
        | none => total)
      acc
    = (List.finRange 8).foldl (fun t c => nanAdd t (sqA b row c)) acc := by
  apply List.foldl_ext
  intro a c _
  cases h : b row c with
  | none => cases a <;> simp [sqA, h, nanAdd]
  | some p => simp [sqA, h]

theorem evaluateBoardA_eq (b : Board) :
    EngineA.evaluateBoard b
      = (List.finRange 8).foldl
          (fun t row =>
            nanAdd t ((List.finRange 8).foldl (fun t2 c => nanAdd t2 (sqA b row c)) (some 0)))
          (some 0) := by
  unfold EngineA.evaluateBoard
  apply List.foldl_ext
  intro a row _
  rw [evalA_inner, foldl_nanAdd_shift]

theorem known_sqA {b : Board} (h : known EngineA.PIECE_VALUES b) (r c : Fin 8) :
    sqA b r c = some (signedVal EngineA.PIECE_VALUES (b r c)) := by
  have hk := h r c
  cases hb : b r c with
  | none => simp [sqA, hb, signedVal]
  | some p =>
    rw [hb] at hk
    simp only [Option.all_some] at hk
    obtain ⟨v, hv⟩ := Option.isSome_iff_exists.mp hk
    simp [sqA, hb, hv, signedVal]

theorem evaluateBoardA_known {b : Board} (h : known EngineA.PIECE_VALUES b) :
    EngineA.evaluateBoard b = some (matScore EngineA.PIECE_VALUES b) := by
  rw [evaluateBoardA_eq]
  have hrow : ∀ row : Fin 8,
      (List.finRange 8).foldl (fun t2 c => nanAdd t2 (sqA b row c)) (some 0)
        = some (∑ c : Fin 8, signedVal EngineA.PIECE_VALUES (b row c)) := by
    intro row
    rw [foldl_nanAdd_known (fun c => sqA b row c)
        (fun c => signedVal EngineA.PIECE_VALUES (b row c))
        (List.finRange 8) (fun c _ => known_sqA h row c)]
    rw [Fin.sum_univ_def]
  have h2 : (List.finRange 8).foldl
      (fun t row =>
        nanAdd t ((List.finRange 8).foldl (fun t2 c => nanAdd t2 (sqA b row c)) (some 0)))
      (some 0)
    = (List.finRange 8).foldl
        (fun t row =>
          nanAdd t (some (∑ c : Fin 8, signedVal EngineA.PIECE_VALUES (b row c))))
        (some 0) :=
    List.foldl_ext _ _ _ (fun a row _ => by rw [hrow row])
  rw [h2, foldl_nanAdd_known _
      (fun row => ∑ c : Fin 8, signedVal EngineA.PIECE_VALUES (b row c))
      (List.finRange 8) (fun row _ => rfl)]
  unfold matScore
  rw [Fin.sum_univ_def]

theorem evaluateBoardA_unknown {b : Board} (h : ¬ known EngineA.PIECE_VALUES b) :
    EngineA.evaluateBoard b = none := by
  unfold known at h
  push_neg at h
  obtain ⟨r, c, hrc⟩ := h
  have hsq : sqA b r c = none := by
    cases hb : b r c with
    | none => rw [hb] at hrc; simp [Option.all_none] at hrc
    | some p =>
      rw [hb] at hrc
      simp only [Option.all_some, Bool.not_eq_true] at hrc
      have hnone : EngineA.PIECE_VALUES p.type = none :=
        Option.not_isSome_iff_eq_none.mp (by rw [hrc]; exact Bool.false_ne_true)
      simp [sqA, hb, hnone]
  rw [evaluateBoardA_eq]
  apply foldl_nanAdd_unknown
  refine ⟨r, List.mem_finRange r, ?_⟩
  exact foldl_nanAdd_unknown _ _ ⟨c, List.mem_finRange c, hsq⟩ (some 0)

theorem evaluateBoardB_eq (b : Board) :
    EngineB.evaluateBoard b = matScore EngineB.PIECE_VALUES b := by
  unfold EngineB.evaluateBoard
  have hin : ∀ (row : Fin 8) (acc : ℤ),
      (List.finRange 8).foldl
        (fun total col =>
          match b row col with
          | some piece =>
            total + (if piece.color = Color.w then (EngineB.PIECE_VALUES piece.type).getD 0
                     else -((EngineB.PIECE_VALUES piece.type).getD 0))
          | none => total)
        acc
      = acc + ∑ c : Fin 8, signedVal EngineB.PIECE_VALUES (b row c) := by
    intro row acc
    have hx : (List.finRange 8).foldl
        (fun total col =>
          match b row col with
          | some piece =>
            total + (if piece.color = Color.w then (EngineB.PIECE_VALUES piece.type).getD 0
                     else -((EngineB.PIECE_VALUES piece.type).getD 0))
          | none => total)
        acc
      = (List.finRange 8).foldl
          (fun t c => t + signedVal EngineB.PIECE_VALUES (b row c)) acc := by
      apply List.foldl_ext
      intro a c _
      cases h : b row c with
      | none => simp [signedVal, h]
      | some p => simp [signedVal, h]
    rw [hx, foldl_add_shift, Fin.sum_univ_def]
  have h2 : (List.finRange 8).foldl
      (fun totalEvaluation row =>
        (List.finRange 8).foldl
          (fun total col =>
            match b row col with
            | some piece =>
              total + (if piece.color = Color.w then (EngineB.PIECE_VALUES piece.type).getD 0
                       else -((EngineB.PIECE_VALUES piece.type).getD 0))
            | none => total)
          totalEvaluation)
      (0 : ℤ)
    = (List.finRange 8).foldl
        (fun t row => t + ∑ c : Fin 8, signedVal EngineB.PIECE_VALUES (b row c)) (0 : ℤ) :=
    List.foldl_ext _ _ _ (fun a row _ => by rw [hin row a])
  rw [h2, foldl_add_shift, zero_add]
  unfold matScore
  rw [Fin.sum_univ_def]

/-! Pointwise relations between the tables and board transformations. -/

theorem signedVal_swap (tbl : Char → Option ℤ) (o : Option Piece) :
    signedVal tbl (o.map fun p => ⟨p.type, swapColor p.color⟩) = -signedVal tbl o := by
  rcases o with _ | ⟨t, c⟩
  · simp [signedVal]
  · cases c <;> simp [signedVal, swapColor]

theorem known_square_swap (tbl : Char → Option ℤ) (b : Board) (r c : Fin 8) :
    ((colorSwap b r c).all fun p => (tbl p.type).isSome)
      = ((b r c).all fun p => (tbl p.type).isSome) := by
  cases hb : b r c <;> simp [colorSwap, hb]

theorem known_colorSwap (tbl : Char → Option ℤ) (b : Board) :
    known tbl (colorSwap b) ↔ known tbl b := by
  unfold known
  constructor
  · intro h r c
    have := h r c
    rwa [known_square_swap] at this
  · intro h r c
    rw [known_square_swap]
    exact h r c

theorem matScore_colorSwap (tbl : Char → Option ℤ) (b : Board) :
    matScore tbl (colorSwap b) = -matScore tbl b := by
  unfold matScore
  rw [← Finset.sum_neg_distrib]
  apply Finset.sum_congr rfl
  intro r _
  rw [← Finset.sum_neg_distrib]
  apply Finset.sum_congr rfl
  intro c _
  exact signedVal_swap tbl (b r c)

theorem signedVal_tables (o : Option Piece) :
    signedVal EngineB.PIECE_VALUES o
      = 10 * signedVal EngineA.PIECE_VALUES o + 900 * kingSign o := by
  rcases o with _ | ⟨t, c⟩
  · simp [signedVal, kingSign]
  · by_cases hp : t = 'p'
    · subst hp; cases c <;> decide
    · by_cases hn : t = 'n'
      · subst hn; cases c <;> decide
      · by_cases hbi : t = 'b'
        · subst hbi; cases c <;> decide
        · by_cases hr : t = 'r'
          · subst hr; cases c <;> decide
          · by_cases hq : t = 'q'
            · subst hq; cases c <;> decide
            · by_cases hk : t = 'k'
              · subst hk; cases c <;> decide
              · have hA : EngineA.PIECE_VALUES t = none := by
                  simp [EngineA.PIECE_VALUES, hp, hn, hbi, hr, hq, hk]
                have hB : EngineB.PIECE_VALUES t = none := by
                  simp [EngineB.PIECE_VALUES, hp, hn, hbi, hr, hq, hk]
                cases c <;> simp [signedVal, kingSign, hA, hB, hk]

theorem matScore_tables (b : Board) :
    matScore EngineB.PIECE_VALUES b
      = 10 * matScore EngineA.PIECE_VALUES b + 900 * kingDiff b := by
  unfold matScore kingDiff
  have h1 : ∀ r : Fin 8,
      (∑ c : Fin 8, signedVal EngineB.PIECE_VALUES (b r c))
        = 10 * (∑ c : Fin 8, signedVal EngineA.PIECE_VALUES (b r c))
          + 900 * (∑ c : Fin 8, kingSign (b r c)) := by
    intro r
    rw [Finset.mul_sum, Finset.mul_sum, ← Finset.sum_add_distrib]
    exact Finset.sum_congr rfl (fun c _ => signedVal_tables (b r c))
  rw [Finset.sum_congr rfl (fun r _ => h1 r), Finset.sum_add_distrib,
    ← Finset.mul_sum, ← Finset.mul_sum]

theorem kingSign_eq (o : Option Piece) :
    kingSign o = kingIndicator Color.w o - kingIndicator Color.b o := by
  rcases o with _ | ⟨t, c⟩
  · simp [kingSign, kingIndicator]
  · cases c <;> simp [kingSign, kingIndicator] <;> split_ifs <;> simp_all

theorem kingDiff_counts (b : Board) :
    kingDiff b = kingCount Color.w b - kingCount Color.b b := by
  unfold kingDiff kingCount
  rw [← Finset.sum_sub_distrib]
  apply Finset.sum_congr rfl
  intro r _
  rw [← Finset.sum_sub_distrib]
  exact Finset.sum_congr rfl (fun c _ => kingSign_eq (b r c))

theorem onlyKings_type {b : Board} (h : onlyKings b) {r c : Fin 8} {p : Piece}
    (hb : b r c = some p) : p.type = 'k' := by
  have := h r c
  rw [hb] at this
  simpa using this

theorem onlyKings_knownA {b : Board} (h : onlyKings b) :
    known EngineA.PIECE_VALUES b := by
  intro r c
  cases hb : b r c with
  | none => simp
  | some p =>
    have ht := onlyKings_type h hb
    simp only [Option.all_some, ht]
    decide

theorem matScoreA_onlyKings {b : Board} (h : onlyKings b) :
    matScore EngineA.PIECE_VALUES b = 0 := by
  unfold matScore
  apply Finset.sum_eq_zero
  intro r _
  apply Finset.sum_eq_zero
  intro c _
  cases hb : b r c with
  | none => simp [signedVal]
  | some p =>
    have ht := onlyKings_type h hb
    have hv : EngineA.PIECE_VALUES p.type = some 0 := by rw [ht]; decide
    rcases p with ⟨t, col⟩
    cases col <;> simp [signedVal, hv]

theorem matScoreB_removeAt {b : Board} {r c : Fin 8} {p : Piece}
    (hb : b r c = some p) (hnone : EngineB.PIECE_VALUES p.type = none) :
    matScore EngineB.PIECE_VALUES (removeAt b r c) = matScore EngineB.PIECE_VALUES b := by
  unfold matScore
  apply Finset.sum_congr rfl
  intro r2 _
  apply Finset.sum_congr rfl
  intro c2 _
  unfold removeAt
  by_cases h : r2 = r ∧ c2 = c
  · obtain ⟨h1, h2⟩ := h
    subst h1; subst h2
    rw [if_pos ⟨rfl, rfl⟩, hb]
    rcases p with ⟨t, col⟩
    cases col <;> simp [signedVal, hnone]
  · rw [if_neg h]

/-! Folded maxima and minima over a linear order. -/

section FoldOrder

variable {γ : Type} [LinearOrder γ]

theorem le_foldl_max : ∀ (l : List γ) (i : γ), i ≤ l.foldl max i := by
  intro l
  induction l with
  | nil => intro i; exact le_rfl
  | cons x xs ih => intro i; exact le_trans (le_max_left i x) (ih (max i x))

theorem foldl_max_mono : ∀ (l : List γ) {i j : γ}, i ≤ j → l.foldl max i ≤ l.foldl max j := by
  intro l
  induction l with
  | nil => intro i j h; exact h
  | cons x xs ih => intro i j h; exact ih (max_le_max h le_rfl)

theorem foldl_max_init : ∀ (l : List γ) (i j : γ),
    l.foldl max (max i j) = max (l.foldl max i) j := by
  intro l
  induction l with
  | nil => intro i j; rfl
  | cons x xs ih =>
    intro i j
    have h : max (max i j) x = max (max i x) j := by
      rw [max_assoc, max_comm j x, ← max_assoc]
    calc (x :: xs).foldl max (max i j) = xs.foldl max (max (max i j) x) := rfl
      _ = xs.foldl max (max (max i x) j) := by rw [h]
      _ = max (xs.foldl max (max i x)) j := ih (max i x) j
      _ = max ((x :: xs).foldl max i) j := rfl

theorem foldl_min_le : ∀ (l : List γ) (i : γ), l.foldl min i ≤ i := by
  intro l
  induction l with
  | nil => intro i; exact le_rfl
  | cons x xs ih => intro i; exact le_trans (ih (min i x)) (min_le_left i x)

theorem foldl_min_mono : ∀ (l : List γ) {i j : γ}, i ≤ j → l.foldl min i ≤ l.foldl min j := by
  intro l
  induction l with
  | nil => intro i j h; exact h
  | cons x xs ih => intro i j h; exact ih (min_le_min h le_rfl)

theorem foldl_min_init : ∀ (l : List γ) (i j : γ),
    l.foldl min (min i j) = min (l.foldl min i) j := by
  intro l
  induction l with
  | nil => intro i j; rfl
  | cons x xs ih =>
    intro i j
    have h : min (min i j) x = min (min i x) j := by
      rw [min_assoc, min_comm j x, ← min_assoc]
    calc (x :: xs).foldl min (min i j) = xs.foldl min (min (min i j) x) := rfl
      _ = xs.foldl min (min (min i x) j) := by rw [h]
      _ = min (xs.foldl min (min i x)) j := ih (min i x) j
      _ = min ((x :: xs).foldl min i) j := rfl

end FoldOrder

/-! Knuth-Moore style sandwich bounds for the pruned loops. -/

theorem maxLoopP_sandwich {μ : Type} (f : μ → EInt → EInt → EInt) (fm : μ → EInt) :
    ∀ l : List μ,
      (∀ m ∈ l, ∀ a b : EInt, a < b →
        min (fm m) b ≤ f m a b ∧ f m a b ≤ max (fm m) a) →
      ∀ alpha beta best : EInt, alpha < beta → best ≤ alpha →
        min ((l.map fm).foldl max best) beta ≤ maxLoopP f l alpha beta best ∧
        maxLoopP f l alpha beta best ≤ max ((l.map fm).foldl max best) alpha := by
  intro l
  induction l with
  | nil =>
    intro _ alpha beta best _ _
    simp only [maxLoopP, List.map_nil, List.foldl_nil]
    exact ⟨min_le_left _ _, le_max_left _ _⟩
  | cons m ms ih =>
    intro hf alpha beta best hab hba
    obtain ⟨he1, he2⟩ := hf m (List.mem_cons_self m ms) alpha beta hab
    simp only [maxLoopP, List.map_cons, List.foldl_cons]
    set e := f m alpha beta with hee
    by_cases hbr : beta ≤ max alpha e
    · rw [if_pos hbr]
      have hbe : beta ≤ e := by
        rcases le_total alpha e with h | h
        · rwa [max_eq_right h] at hbr
        · rw [max_eq_left h] at hbr
          exact absurd hbr (not_le_of_lt hab)
      constructor
      · calc min ((ms.map fm).foldl max (max best (fm m))) beta
            ≤ beta := min_le_right _ _
          _ ≤ e := hbe
          _ ≤ max best e := le_max_right _ _
      · apply max_le
        · exact le_trans (le_trans (le_max_left best (fm m)) (le_foldl_max _ _))
            (le_max_left _ _)
        · have hfmS : fm m ≤ (ms.map fm).foldl max (max best (fm m)) :=
            le_trans (le_max_right best (fm m)) (le_foldl_max _ _)
          exact le_trans he2 (max_le_max hfmS le_rfl)
    · rw [if_neg hbr]
      have halt : max alpha e < beta := not_le.mp hbr
      have hfmb : fm m < beta := by
        by_contra hcon
        push_neg at hcon
        have hbee : beta ≤ e := by
          rw [min_eq_right hcon] at he1
          exact he1
        exact absurd (lt_of_le_of_lt (le_trans hbee (le_max_right alpha e)) halt)
          (lt_irrefl beta)
      have hfme : fm m ≤ e := by
        rw [min_eq_left (le_of_lt hfmb)] at he1
        exact he1
      have hinv : max best e ≤ max alpha e := max_le_max hba le_rfl
      obtain ⟨IH1, IH2⟩ :=
        ih (fun m2 hm2 => hf m2 (List.mem_cons_of_mem m hm2))
          (max alpha e) beta (max best e) halt hinv
      constructor
      · refine le_trans ?_ IH1
        exact min_le_min (foldl_max_mono _ (max_le_max le_rfl hfme)) le_rfl
      · refine le_trans IH2 ?_
        apply max_le
        · have h1 : max best e ≤ max (max best (fm m)) alpha := by
            apply max_le
            · exact le_trans (le_max_left best (fm m)) (le_max_left _ _)
            · exact le_trans he2 (max_le_max (le_max_right best (fm m)) le_rfl)
          exact le_trans (foldl_max_mono _ h1) (le_of_eq (foldl_max_init _ _ _))
        · apply max_le
          · exact le_max_right _ _
          · have hfmS : fm m ≤ (ms.map fm).foldl max (max best (fm m)) :=
              le_trans (le_max_right best (fm m)) (le_foldl_max _ _)
            exact le_trans he2 (max_le_max hfmS le_rfl)

theorem minLoopP_sandwich {μ : Type} (f : μ → EInt → EInt → EInt) (fm : μ → EInt) :
    ∀ l : List μ,
      (∀ m ∈ l, ∀ a b : EInt, a < b →
        min (fm m) b ≤ f m a b ∧ f m a b ≤ max (fm m) a) →
      ∀ alpha beta best : EInt, alpha < beta → beta ≤ best →
        min ((l.map fm).foldl min best) beta ≤ minLoopP f l alpha beta best ∧
        minLoopP f l alpha beta best ≤ max ((l.map fm).foldl min best) alpha := by
  intro l
  induction l with
  | nil =>
    intro _ alpha beta best _ _
    simp only [minLoopP, List.map_nil, List.foldl_nil]
    exact ⟨min_le_left _ _, le_max_left _ _⟩
  | cons m ms ih =>
    intro hf alpha beta best hab hbb
    obtain ⟨he1, he2⟩ := hf m (List.mem_cons_self m ms) alpha beta hab
    simp only [minLoopP, List.map_cons, List.foldl_cons]
    set e := f m alpha beta with hee
    by_cases hbr : min beta e ≤ alpha
    · rw [if_pos hbr]
      have hea : e ≤ alpha := by
        rcases le_total beta e with h | h
        · rw [min_eq_left h] at hbr
          exact absurd hbr (not_le_of_lt hab)
        · rwa [min_eq_right h] at hbr
      constructor
      · apply le_min
        · exact le_trans (min_le_left _ _)
            (le_trans (foldl_min_le _ _) (min_le_left best (fm m)))
        · have hfmS : (ms.map fm).foldl min (min best (fm m)) ≤ fm m :=
            le_trans (foldl_min_le _ _) (min_le_right best (fm m))
          exact le_trans (min_le_min hfmS le_rfl) he1
      · calc min best e ≤ e := min_le_right _ _
          _ ≤ alpha := hea
          _ ≤ max ((ms.map fm).foldl min (min best (fm m))) alpha := le_max_right _ _
    · rw [if_neg hbr]
      have halt : alpha < min beta e := not_le.mp hbr
      have hfma : alpha < fm m := by
        by_contra hcon
        push_neg at hcon
        have heaa : e ≤ alpha := by
          rw [max_eq_right hcon] at he2
          exact he2
        exact absurd (lt_of_lt_of_le halt (le_trans (min_le_right beta e) heaa))
          (lt_irrefl alpha)
      have hefm : e ≤ fm m := by
        rw [max_eq_left (le_of_lt hfma)] at he2
        exact he2
      obtain ⟨IH1, IH2⟩ :=
        ih (fun m2 hm2 => hf m2 (List.mem_cons_of_mem m hm2))
          alpha (min beta e) (min best e) halt (min_le_min hbb le_rfl)
      constructor
      · refine le_trans ?_ IH1
        apply le_min
        · have h1 : min (min best (fm m)) beta ≤ min best e := by
            apply le_min
            · exact le_trans (min_le_left _ _) (min_le_left best (fm m))
            · exact le_trans (min_le_min (min_le_right best (fm m)) le_rfl) he1
          exact le_trans (le_of_eq (foldl_min_init _ _ _).symm) (foldl_min_mono _ h1)
        · apply le_min
          · exact min_le_right _ _
          · have hfmS : (ms.map fm).foldl min (min best (fm m)) ≤ fm m :=
              le_trans (foldl_min_le _ _) (min_le_right best (fm m))
            exact le_trans (min_le_min hfmS le_rfl) he1
      · refine le_trans IH2 ?_
        exact max_le_max (foldl_min_mono _ (min_le_min le_rfl hefm)) le_rfl

theorem alphabeta_sandwich {π μ : Type} (E : Engine π μ) :
    ∀ (d : ℕ) (g : π) (isMax : Bool) (alpha beta : EInt), alpha < beta →
      min (fullMinimax E d g isMax) beta ≤ alphabeta E d g alpha beta isMax ∧
      alphabeta E d g alpha beta isMax ≤ max (fullMinimax E d g isMax) alpha := by
  intro d
  induction d with
  | zero =>
    intro g isMax alpha beta _
    simp only [alphabeta, fullMinimax]
    exact ⟨min_le_left _ _, le_max_left _ _⟩
  | succ d ih =>
    intro g isMax alpha beta hab
    simp only [alphabeta, fullMinimax]
    by_cases hover : E.isGameOver g
    · rw [if_pos hover, if_pos hover]
      exact ⟨min_le_left _ _, le_max_left _ _⟩
    · rw [if_neg hover, if_neg hover]
      cases isMax with
      | true =>
        simp only [if_pos rfl]
        exact maxLoopP_sandwich _ _ (E.moves g)
          (fun m _ a b h => ih (E.play g m) false a b h) alpha beta ⊥ hab bot_le
      | false =>
        rw [if_neg Bool.false_ne_true]
        exact minLoopP_sandwich _ _ (E.moves g)
          (fun m _ a b h => ih (E.play g m) true a b h) alpha beta ⊤ hab le_top

theorem alphabeta_eq_fullMinimax {π μ : Type} (E : Engine π μ)
    (d : ℕ) (g : π) (isMax : Bool) :
    alphabeta E d g ⊥ ⊤ isMax = fullMinimax E d g isMax := by
  obtain ⟨h1, h2⟩ := alphabeta_sandwich E d g isMax ⊥ ⊤ bot_lt_top
  rw [min_eq_left le_top] at h1
  rw [max_eq_left bot_le] at h2
  exact le_antisymm h2 h1

/-! Apply/undo symmetry: the search never leaks a mutation of the session. -/

theorem popMove_pushMove {π μ : Type} (E : Engine π μ) (s : Session π) (m : μ) :
    popMove (pushMove E s m) = s := rfl

theorem maxLoop_state {π μ : Type} (E : Engine π μ)
    (child : Session π → JsNum → JsNum → JsNum × Session π)
    (hc : ∀ (s1 : Session π) (a b : JsNum), (child s1 a b).2 = s1) :
    ∀ (l : List μ) (s : Session π) (alpha beta best : JsNum),
      (EngineA.maxLoop E child l s alpha beta best).2 = s := by
  intro l
  induction l with
  | nil => intro s alpha beta best; rfl
  | cons m ms ih =>
    intro s alpha beta best
    have hpop : popMove (child (pushMove E s m) alpha beta).2 = s := by
      rw [hc (pushMove E s m) alpha beta, popMove_pushMove]
    simp only [EngineA.maxLoop]
    cases hb : jsLe beta (jsMax alpha (child (pushMove E s m) alpha beta).1)
    · rw [if_neg Bool.false_ne_true, hpop]
      exact ih s _ _ _
    · rw [if_pos rfl]
      exact hpop

theorem minLoop_state {π μ : Type} (E : Engine π μ)
    (child : Session π → JsNum → JsNum → JsNum × Session π)
    (hc : ∀ (s1 : Session π) (a b : JsNum), (child s1 a b).2 = s1) :
    ∀ (l : List μ) (s : Session π) (alpha beta best : JsNum),
      (EngineA.minLoop E child l s alpha beta best).2 = s := by
  intro l
  induction l with
  | nil => intro s alpha beta best; rfl
  | cons m ms ih =>
    intro s alpha beta best
    have hpop : popMove (child (pushMove E s m) alpha beta).2 = s := by
      rw [hc (pushMove E s m) alpha beta, popMove_pushMove]
    simp only [EngineA.minLoop]
    cases hb : jsLe (jsMin beta (child (pushMove E s m) alpha beta).1) alpha
    · rw [if_neg Bool.false_ne_true, hpop]
      exact ih s _ _ _
    · rw [if_pos rfl]
      exact hpop

theorem minimax_state {π μ : Type} (E : Engine π μ) :
    ∀ (d : ℕ) (s : Session π) (alpha beta : JsNum) (isMax : Bool),
      (EngineA.minimax E d s alpha beta isMax).2 = s := by
  intro d
  induction d with
  | zero => intro s alpha beta isMax; rfl
  | succ d ih =>
    intro s alpha beta isMax
    simp only [EngineA.minimax]
    by_cases hover : E.isGameOver s.pos = true
    · rw [if_pos hover]
    · rw [if_neg hover]
      cases isMax
      · rw [if_neg Bool.false_ne_true]
        exact minLoop_state E _ (fun s1 a b => ih s1 a b true) (E.moves s.pos) s alpha beta _
      · rw [if_pos rfl]
        exact maxLoop_state E _ (fun s1 a b => ih s1 a b false) (E.moves s.pos) s alpha beta _

/-! Bridge from the state-passing JS search to the pure alpha-beta model. -/

theorem maxLoop_bridge {π μ : Type} (E : Engine π μ)
    (child : Session π → JsNum → JsNum → JsNum × Session π)
    (pf : π → EInt → EInt → EInt)
    (hc : ∀ (s1 : Session π) (x y : EInt),
      child s1 (toJs x) (toJs y) = (toJs (pf s1.pos x y), s1)) :
    ∀ (l : List μ) (s : Session π) (a b best : EInt),
      EngineA.maxLoop E child l s (toJs a) (toJs b) (toJs best)
        = (toJs (maxLoopP (fun m x y => pf (E.play s.pos m) x y) l a b best), s) := by
  intro l
  induction l with
  | nil => intro s a b best; rfl
  | cons m ms ih =>
    intro s a b best
    simp only [EngineA.maxLoop, maxLoopP]
    rw [hc (pushMove E s m) a b]
    dsimp only [pushMove]
    rw [show popMove ⟨E.play s.pos m, s.pos :: s.hist⟩ = s from rfl]
    rw [jsMax_toJs a (pf (E.play s.pos m) a b), jsMax_toJs best (pf (E.play s.pos m) a b),
      jsLe_toJs b (max a (pf (E.play s.pos m) a b))]
    by_cases hcond : b ≤ max a (pf (E.play s.pos m) a b)
    · rw [if_pos (decide_eq_true hcond), if_pos hcond]
    · rw [if_neg (fun h => hcond (of_decide_eq_true h)), if_neg hcond]
      exact ih s (max a (pf (E.play s.pos m) a b)) b (max best (pf (E.play s.pos m) a b))

theorem minLoop_bridge {π μ : Type} (E : Engine π μ)
    (child : Session π → JsNum → JsNum → JsNum × Session π)
    (pf : π → EInt → EInt → EInt)
    (hc : ∀ (s1 : Session π) (x y : EInt),
      child s1 (toJs x) (toJs y) = (toJs (pf s1.pos x y), s1)) :
    ∀ (l : List μ) (s : Session π) (a b best : EInt),
      EngineA.minLoop E child l s (toJs a) (toJs b) (toJs best)
        = (toJs (minLoopP (fun m x y => pf (E.play s.pos m) x y) l a b best), s) := by
  intro l
  induction l with
  | nil => intro s a b best; rfl
  | cons m ms ih =>
    intro s a b best
    simp only [EngineA.minLoop, minLoopP]
    rw [hc (pushMove E s m) a b]
    dsimp only [pushMove]
    rw [show popMove ⟨E.play s.pos m, s.pos :: s.hist⟩ = s from rfl]
    rw [jsMin_toJs b (pf (E.play s.pos m) a b), jsMin_toJs best (pf (E.play s.pos m) a b),
      jsLe_toJs (min b (pf (E.play s.pos m) a b)) a]
    by_cases hcond : min b (pf (E.play s.pos m) a b) ≤ a
    · rw [if_pos (decide_eq_true hcond), if_pos hcond]
    · rw [if_neg (fun h => hcond (of_decide_eq_true h)), if_neg hcond]
      exact ih s a (min b (pf (E.play s.pos m) a b)) (min best (pf (E.play s.pos m) a b))

theorem minimax_bridge {π μ : Type} (E : Engine π μ)
    (hK : ∀ p : π, known EngineA.PIECE_VALUES (E.board p)) :
    ∀ (d : ℕ) (s : Session π) (a b : EInt) (isMax : Bool),
      EngineA.minimax E d s (toJs a) (toJs b) isMax
        = (toJs (alphabeta E d s.pos a b isMax), s) := by
  intro d
  induction d with
  | zero =>
    intro s a b isMax
    simp only [EngineA.minimax, alphabeta]
    rw [evaluateBoardA_known (hK s.pos)]
    rfl
  | succ d ih =>
    intro s a b isMax
    simp only [EngineA.minimax, alphabeta]
    by_cases hover : E.isGameOver s.pos = true
    · rw [if_pos hover, if_pos hover, evaluateBoardA_known (hK s.pos)]
      rfl
    · rw [if_neg hover, if_neg hover]
      cases isMax
      · rw [if_neg Bool.false_ne_true, if_neg Bool.false_ne_true]
        exact minLoop_bridge E _ (fun g x y => alphabeta E d g x y true)
          (fun s1 x y => ih s1 x y true) (E.moves s.pos) s a b ⊤
      · rw [if_pos rfl, if_pos rfl]
        exact maxLoop_bridge E _ (fun g x y => alphabeta E d g x y false)
          (fun s1 x y => ih s1 x y false) (E.moves s.pos) s a b ⊥

/-! The top-level move selection. -/

theorem bestLoop_state {π μ : Type} (E : Engine π μ) (d : ℕ) :
    ∀ (l : List μ) (s : Session π) (bm : Option μ) (bv : JsNum),
      (EngineA.bestLoop E d l s bm bv).2.2 = s := by
  intro l
  induction l with
  | nil => intro s bm bv; rfl
  | cons m ms ih =>
    intro s bm bv
    simp only [EngineA.bestLoop]
    rw [minimax_state E, popMove_pushMove]
    split_ifs <;> exact ih s _ _

theorem getBestMove_state {π μ : Type} (E : Engine π μ)
    (sh : List μ → List μ) (s : Session π) (depth : ℕ) :
    (EngineA.getBestMove E sh s depth).2 = s := by
  simp only [EngineA.getBestMove]
  by_cases h : (E.moves s.pos).length = 0
  · rw [if_pos h]
  · rw [if_neg h]
    exact bestLoop_state E (depth - 1) (sh (E.moves s.pos)) s none _

theorem bestLoop_mem {π μ : Type} (E : Engine π μ) (d : ℕ) :
    ∀ (l : List μ) (s : Session π) (bm : Option μ) (bv : JsNum),
      (EngineA.bestLoop E d l s bm bv).1 = bm ∨
        ∃ m ∈ l, (EngineA.bestLoop E d l s bm bv).1 = some m := by
  intro l
  induction l with
  | nil => intro s bm bv; exact Or.inl rfl
  | cons m ms ih =>
    intro s bm bv
    simp only [EngineA.bestLoop]
    split_ifs
    · rcases ih _ (some m) _ with h | ⟨m2, hm2, hr⟩
      · exact Or.inr ⟨m, List.mem_cons_self m ms, h⟩
      · exact Or.inr ⟨m2, List.mem_cons_of_mem m hm2, hr⟩
    · rcases ih _ bm bv with h | ⟨m2, hm2, hr⟩
      · exact Or.inl h
      · exact Or.inr ⟨m2, List.mem_cons_of_mem m hm2, hr⟩
    · rcases ih _ (some m) _ with h | ⟨m2, hm2, hr⟩
      · exact Or.inr ⟨m, List.mem_cons_self m ms, h⟩
      · exact Or.inr ⟨m2, List.mem_cons_of_mem m hm2, hr⟩
    · rcases ih _ bm bv with h | ⟨m2, hm2, hr⟩
      · exact Or.inl h
      · exact Or.inr ⟨m2, List.mem_cons_of_mem m hm2, hr⟩

/-- C2: for a position with no legal moves, `getBestMove` and
`getRandomMove` both return `null`; for a position with at least one legal
move (and any shuffle that permutes the move list) both return some member
of the legal-move list, never `null`. -/
theorem move_selection_null_spec {π μ : Type} (E : Engine π μ) :
    (∀ (g : π) (k : ℕ), E.moves g = [] → EngineA.getRandomMove E g k = none) ∧
    (∀ (g : π) (k : ℕ), E.moves g ≠ [] →
      ∃ m ∈ E.moves g, EngineA.getRandomMove E g k = some m) ∧
    (∀ (sh : List μ → List μ) (s : Session π) (depth : ℕ), E.moves s.pos = [] →
      (EngineA.getBestMove E sh s depth).1 = none) ∧
    (∀ (sh : List μ → List μ) (s : Session π) (depth : ℕ),
      (sh (E.moves s.pos)).Perm (E.moves s.pos) → E.moves s.pos ≠ [] →
      ∃ m ∈ E.moves s.pos, (EngineA.getBestMove E sh s depth).1 = some m) := by
  refine ⟨?_, ?_, ?_, ?_⟩
  · intro g k h
    simp only [EngineA.getRandomMove]
    rw [if_pos (by rw [h]; rfl)]
  · intro g k h
    have hlen : 0 < (E.moves g).length := List.length_pos.mpr h
    have hidx : k % (E.moves g).length < (E.moves g).length := Nat.mod_lt k hlen
    refine ⟨(E.moves g)[k % (E.moves g).length], List.getElem_mem hidx, ?_⟩
    simp only [EngineA.getRandomMove]
    rw [if_neg (Nat.pos_iff_ne_zero.mp hlen), List.getElem?_eq_getElem hidx]
  · intro sh s depth h
    simp only [EngineA.getBestMove]
    rw [if_pos (by rw [h]; rfl)]
  · intro sh s depth hperm h
    have hlen : (E.moves s.pos).length ≠ 0 := fun h0 => h (List.length_eq_zero.mp h0)
    have hsh : sh (E.moves s.pos) ≠ [] := by
      intro h0
      rw [h0] at hperm
      exact h hperm.symm.eq_nil
    simp only [EngineA.getBestMove]
    rw [if_neg hlen]
    rcases bestLoop_mem E (depth - 1) (sh (E.moves s.pos)) s none _ with hb | ⟨m, hm, hb⟩
    · rw [hb]
      refine ⟨(sh (E.moves s.pos)).head hsh, ?_, ?_⟩
      · exact hperm.mem_iff.mp (List.head_mem hsh)
      · rw [List.head?_eq_head hsh]
    · rw [hb]
      exact ⟨m, hperm.mem_iff.mp hm, rfl⟩

/-- C3: after `getBestMove` returns, the position is unchanged; the board
squares, the side to move and the legal-move list are identical to before
the call.  Every move applied during the search is undone before return
(the session, including the undo history, is restored exactly). -/
theorem getBestMove_preserves_position {π μ : Type} (E : Engine π μ)
    (sh : List μ → List μ) (s : Session π) (depth : ℕ) :
    (EngineA.getBestMove E sh s depth).2 = s ∧
    E.board (EngineA.getBestMove E sh s depth).2.pos = E.board s.pos ∧
    E.turn (EngineA.getBestMove E sh s depth).2.pos = E.turn s.pos ∧
    E.moves (EngineA.getBestMove E sh s depth).2.pos = E.moves s.pos := by
  have h := getBestMove_state E sh s depth
  exact ⟨h, by rw [h], by rw [h], by rw [h]⟩

/-- C6: at depth 0 or on a finished game, `minimax` returns exactly
`evaluateBoard` of the current position (and leaves the session unchanged);
there is no special win/loss constant at terminal nodes. -/
theorem minimax_base_case_eval {π μ : Type} (E : Engine π μ) (d : ℕ)
    (s : Session π) (alpha beta : JsNum) (isMax : Bool)
    (h : d = 0 ∨ E.isGameOver s.pos = true) :
    EngineA.minimax E d s alpha beta isMax
      = (jsOfEval (EngineA.evaluateBoard (E.board s.pos)), s) := by
  cases d with
  | zero => rfl
  | succ d =>
    rcases h with h | h
    · exact absurd h (Nat.succ_ne_zero d)
    · simp only [EngineA.minimax]
      rw [if_pos h]

/-- C1: with the full initial window, the score computed by the alpha-beta
`minimax` equals the score of the exhaustive pruning-disabled full-width
minimax of the same game tree, for every position and every depth (over any
collaborator whose boards only carry piece types present in the value
table); the session is returned unchanged, so pruning changes only which
nodes are visited, never the computed value. -/
theorem minimax_pruning_exact {π μ : Type} (E : Engine π μ)
    (hK : ∀ p : π, known EngineA.PIECE_VALUES (E.board p))
    (d : ℕ) (s : Session π) (isMax : Bool) :
    EngineA.minimax E d s JsNum.negInf JsNum.posInf isMax
      = (toJs (fullMinimax E d s.pos isMax), s) := by
  have h := minimax_bridge E hK d s ⊥ ⊤ isMax
  rw [alphabeta_eq_fullMinimax] at h
  exact h

/-! Termination of the search within a call-stack budget bounded by depth. -/

theorem maxLoopF_eq {π μ : Type} (E : Engine π μ)
    (childF : Session π → JsNum → JsNum → Option (JsNum × Session π))
    (child : Session π → JsNum → JsNum → JsNum × Session π)
    (hc : ∀ (s1 : Session π) (a b : JsNum), childF s1 a b = some (child s1 a b)) :
    ∀ (l : List μ) (s : Session π) (alpha beta best : JsNum),
      maxLoopF E childF l s alpha beta best
        = some (EngineA.maxLoop E child l s alpha beta best) := by
  intro l
  induction l with
  | nil => intro s alpha beta best; rfl
  | cons m ms ih =>
    intro s alpha beta best
    simp only [maxLoopF, EngineA.maxLoop, hc]
    cases hb : jsLe beta (jsMax alpha (child (pushMove E s m) alpha beta).1)
    · rw [if_neg Bool.false_ne_true, if_neg Bool.false_ne_true]
      exact ih _ _ _ _
    · rw [if_pos rfl, if_pos rfl]

theorem minLoopF_eq {π μ : Type} (E : Engine π μ)
    (childF : Session π → JsNum → JsNum → Option (JsNum × Session π))
    (child : Session π → JsNum → JsNum → JsNum × Session π)
    (hc : ∀ (s1 : Session π) (a b : JsNum), childF s1 a b = some (child s1 a b)) :
    ∀ (l : List μ) (s : Session π) (alpha beta best : JsNum),
      minLoopF E childF l s alpha beta best
        = some (EngineA.minLoop E child l s alpha beta best) := by
  intro l
  induction l with
  | nil => intro s alpha beta best; rfl
  | cons m ms ih =>
    intro s alpha beta best
    simp only [minLoopF, EngineA.minLoop, hc]
    cases hb : jsLe (jsMin beta (child (pushMove E s m) alpha beta).1) alpha
    · rw [if_neg Bool.false_ne_true, if_neg Bool.false_ne_true]
      exact ih _ _ _ _
    · rw [if_pos rfl, if_pos rfl]

/-- C10: `minimax` (together with the `evaluateBoard` it calls at the
leaves) is total: for every position, every depth and every window, the
fuel-indexed operational model completes with the denoted score as soon as
the call-stack budget exceeds the depth; there is no error outcome. -/
theorem minimax_terminates_with_fuel {π μ : Type} (E : Engine π μ) :
    ∀ (fuel d : ℕ) (s : Session π) (alpha beta : JsNum) (isMax : Bool), d < fuel →
      minimaxFuel E fuel d s alpha beta isMax
        = some (EngineA.minimax E d s alpha beta isMax) := by
  intro fuel
  induction fuel with
  | zero => intro d s a b m h; exact absurd h (Nat.not_lt_zero d)
  | succ fuel ih =>
    intro d s a b m h
    cases d with
    | zero =>
      unfold minimaxFuel
      rw [if_pos (Or.inl rfl)]
      rfl
    | succ d =>
      have hd : d < fuel := Nat.lt_of_succ_lt_succ h
      unfold minimaxFuel EngineA.minimax
      by_cases hover : E.isGameOver s.pos = true
      · rw [if_pos (Or.inr hover), if_pos hover]
      · have hcond : ¬(d + 1 = 0 ∨ E.isGameOver s.pos = true) := by
          rintro (hc | hc)
          · exact Nat.succ_ne_zero d hc
          · exact hover hc
        rw [if_neg hcond, if_neg hover]
        cases m
        · rw [if_neg Bool.false_ne_true, if_neg Bool.false_ne_true]
          exact minLoopF_eq E _ _
            (fun s1 x y => ih d s1 x y true hd)
            (E.moves s.pos) s a b _
        · rw [if_pos rfl, if_pos rfl]
          exact maxLoopF_eq E _ _
            (fun s1 x y => ih d s1 x y false hd)
            (E.moves s.pos) s a b _

/-! Depth-one move selection picks a move of maximal evaluated score. -/

theorem bestLoop_argmax {π μ : Type} (E : Engine π μ) (s : Session π)
    (hw : E.turn s.pos = Color.w) :
    ∀ l : List μ,
      (∀ m ∈ l, known EngineA.PIECE_VALUES (E.board (E.play s.pos m))) →
      ∀ m0 : μ,
        ∃ m2, (EngineA.bestLoop E 0 l s (some m0)
            (JsNum.val (childScore E s.pos m0))).1 = some m2 ∧
          (m2 = m0 ∨ m2 ∈ l) ∧
          childScore E s.pos m0 ≤ childScore E s.pos m2 ∧
          ∀ m3 ∈ l, childScore E s.pos m3 ≤ childScore E s.pos m2 := by
  intro l
  induction l with
  | nil =>
    intro _ m0
    exact ⟨m0, rfl, Or.inl rfl, le_rfl,
      fun m3 h3 => absurd h3 (List.not_mem_nil m3)⟩
  | cons m ms ih =>
    intro hkn m0
    simp only [EngineA.bestLoop]
    have hr : EngineA.minimax E 0 (pushMove E s m) JsNum.negInf JsNum.posInf
        (decide (E.turn (pushMove E s m).pos = Color.w))
      = (jsOfEval (EngineA.evaluateBoard (E.board (E.play s.pos m))), pushMove E s m) := rfl
    rw [hr, evaluateBoardA_known (hkn m (List.mem_cons_self m ms))]
    dsimp only [jsOfEval]
    rw [show matScore EngineA.PIECE_VALUES (E.board (E.play s.pos m))
        = childScore E s.pos m from rfl]
    rw [show popMove (pushMove E s m) = s from rfl]
    rw [if_pos hw]
    simp only [jsLt]
    by_cases hlt : childScore E s.pos m0 < childScore E s.pos m
    · rw [if_pos (show decide (childScore E s.pos m0 < childScore E s.pos m) = true
          from decide_eq_true hlt)]
      obtain ⟨m2, h1, h2, h3, h4⟩ :=
        ih (fun x hx => hkn x (List.mem_cons_of_mem m hx)) m
      refine ⟨m2, h1, ?_, le_trans (le_of_lt hlt) h3, ?_⟩
      · rcases h2 with h2 | h2
        · exact Or.inr (h2 ▸ List.mem_cons_self m ms)
        · exact Or.inr (List.mem_cons_of_mem m h2)
      · intro m3 hm3
        rcases List.mem_cons.mp hm3 with h5 | h5
        · exact h5 ▸ h3
        · exact h4 m3 h5
    · rw [if_neg (show ¬decide (childScore E s.pos m0 < childScore E s.pos m) = true
          from fun hcon => hlt (of_decide_eq_true hcon))]
      obtain ⟨m2, h1, h2, h3, h4⟩ :=
        ih (fun x hx => hkn x (List.mem_cons_of_mem m hx)) m0
      refine ⟨m2, h1, ?_, h3, ?_⟩
      · rcases h2 with h2 | h2
        · exact Or.inl h2
        · exact Or.inr (List.mem_cons_of_mem m h2)
      · intro m3 hm3
        rcases List.mem_cons.mp hm3 with h5 | h5
        · exact h5 ▸ le_trans (not_lt.mp hlt) h3
        · exact h4 m3 h5

/-- C4: for a position with White to move and at least one legal move, and
for any ordering the shuffle may produce (any permutation of the legal-move
list), `getBestMove` at depth 1 returns a move whose resulting evaluated
board score is greater than or equal to the resulting evaluated score of
every other legal move. -/
theorem getBestMove_depth_one_maximal {π μ : Type} (E : Engine π μ)
    (s : Session π) (sh : List μ → List μ)
    (hw : E.turn s.pos = Color.w)
    (hne : E.moves s.pos ≠ [])
    (hperm : (sh (E.moves s.pos)).Perm (E.moves s.pos))
    (hkn : ∀ m ∈ E.moves s.pos, known EngineA.PIECE_VALUES (E.board (E.play s.pos m))) :
    ∃ m ∈ E.moves s.pos, (EngineA.getBestMove E sh s 1).1 = some m ∧
      ∀ m2 ∈ E.moves s.pos, childScore E s.pos m2 ≤ childScore E s.pos m := by
  have hlen : (E.moves s.pos).length ≠ 0 := fun h0 => hne (List.length_eq_zero.mp h0)
  have hsh : sh (E.moves s.pos) ≠ [] := by
    intro h0
    rw [h0] at hperm
    exact hne hperm.symm.eq_nil
  obtain ⟨m, ms, hcons⟩ := List.exists_cons_of_ne_nil hsh
  have hknsh : ∀ x ∈ sh (E.moves s.pos),
      known EngineA.PIECE_VALUES (E.board (E.play s.pos x)) :=
    fun x hx => hkn x (hperm.mem_iff.mp hx)
  simp only [EngineA.getBestMove]
  rw [if_neg hlen, if_pos hw, hcons]
  rw [show (1 - 1 : ℕ) = 0 from rfl]
  simp only [EngineA.bestLoop]
  have hr : EngineA.minimax E 0 (pushMove E s m) JsNum.negInf JsNum.posInf
      (decide (E.turn (pushMove E s m).pos = Color.w))
    = (jsOfEval (EngineA.evaluateBoard (E.board (E.play s.pos m))), pushMove E s m) := rfl
  rw [hr, evaluateBoardA_known (hknsh m (hcons ▸ List.mem_cons_self m ms))]
  dsimp only [jsOfEval]
  rw [show matScore EngineA.PIECE_VALUES (E.board (E.play s.pos m))
      = childScore E s.pos m from rfl]
  rw [show popMove (pushMove E s m) = s from rfl]
  rw [if_pos hw]
  rw [if_pos (show jsLt JsNum.negInf
      (JsNum.val (childScore E s.pos m)) = true from rfl)]
  obtain ⟨m2, h1, h2, _h3, h4⟩ :=
    bestLoop_argmax E s hw ms
      (fun x hx => hknsh x (hcons ▸ List.mem_cons_of_mem m hx)) m
  have hm2sh : m2 ∈ sh (E.moves s.pos) := by
    rcases h2 with h2 | h2
    · exact hcons ▸ (h2 ▸ List.mem_cons_self m ms)
    · exact hcons ▸ List.mem_cons_of_mem m h2
  refine ⟨m2, hperm.mem_iff.mp hm2sh, ?_, ?_⟩
  · rw [h1]
  · intro m3 hm3
    have hm3sh : m3 ∈ sh (E.moves s.pos) := hperm.mem_iff.mpr hm3
    rw [hcons] at hm3sh
    rcases List.mem_cons.mp hm3sh with h5 | h5
    · exact h5 ▸ _h3
    · exact h4 m3 h5

/-- C5: the evaluator returns the sum over all occupied squares of the
fixed per-piece-type value, positive for White and negative for Black
regardless of whose turn it is (the `EngineA` variant requires every piece
type to be in its table, since its lookup is unguarded; the `EngineB`
variant satisfies the sum formula on every board).  The result is 0 on the
empty board and exactly 0 when both sides are reduced to bare kings, and
both evaluators are pure Lean functions of the board alone, hence
deterministic and without side effects on the position. -/
theorem evaluateBoard_material_sum :
    (∀ b : Board, known EngineA.PIECE_VALUES b →
      EngineA.evaluateBoard b = some (matScore EngineA.PIECE_VALUES b)) ∧
    (∀ b : Board, EngineB.evaluateBoard b = matScore EngineB.PIECE_VALUES b) ∧
    EngineA.evaluateBoard emptyBoard = some 0 ∧
    EngineB.evaluateBoard emptyBoard = 0 ∧
    (∀ b : Board, bareKings b →
      EngineA.evaluateBoard b = some 0 ∧ EngineB.evaluateBoard b = 0) := by
  refine ⟨fun b h => evaluateBoardA_known h, fun b => evaluateBoardB_eq b,
    by decide, by decide, ?_⟩
  intro b hb
  obtain ⟨hok, hw, hbk⟩ := hb
  constructor
  · rw [evaluateBoardA_known (onlyKings_knownA hok), matScoreA_onlyKings hok]
  · rw [evaluateBoardB_eq, matScore_tables, matScoreA_onlyKings hok,
      kingDiff_counts, hw, hbk]
    ring

/-- C7: swapping the side of every piece on the board negates the score
returned by the evaluator (in the `EngineA` variant, NaN stays NaN, which
is also the JS behaviour of negation on NaN). -/
theorem evaluateBoard_color_antisymm (b : Board) :
    EngineA.evaluateBoard (colorSwap b)
      = (EngineA.evaluateBoard b).map (fun z => -z) ∧
    EngineB.evaluateBoard (colorSwap b) = -EngineB.evaluateBoard b := by
  constructor
  · by_cases h : known EngineA.PIECE_VALUES b
    · rw [evaluateBoardA_known ((known_colorSwap _ b).mpr h), evaluateBoardA_known h,
        matScore_colorSwap]
      rfl
    · rw [evaluateBoardA_unknown (fun hc => h ((known_colorSwap _ b).mp hc)),
        evaluateBoardA_unknown h]
      rfl
  · rw [evaluateBoardB_eq, evaluateBoardB_eq, matScore_colorSwap]

/-- C8 as stated is false: no single constant scale factor relates the two
evaluators, because the king is worth 0 in the first table and 900 in the
second; a board holding a single white king scores 0 under the first
evaluator and 900 under the second, and 900 is not `c * 0` for any `c`. -/
theorem piece_tables_not_proportional :
    ¬ ∃ c : ℤ, ∀ (b : Board) (z : ℤ),
      EngineA.evaluateBoard b = some z → EngineB.evaluateBoard b = c * z := by
  rintro ⟨c, h⟩
  have h1 := h wKingBoard 0 (by decide)
  rw [mul_zero] at h1
  exact absurd h1 (by decide)

/-- C8 amended: on every board on which White and Black have equally many
kings (in particular every legal position, which has exactly one king per
side), the second-table evaluator returns exactly 10 times the first-table
evaluator; the two tables are proportional on pawn, knight, bishop, rook
and queen (factor 10) but not on the king (0 against 900). -/
theorem piece_tables_scaled_modulo_kings (b : Board) (z : ℤ)
    (hA : EngineA.evaluateBoard b = some z) (hk : kingDiff b = 0) :
    EngineB.evaluateBoard b = 10 * z := by
  have hknown : known EngineA.PIECE_VALUES b := by
    by_contra hcon
    rw [evaluateBoardA_unknown hcon] at hA
    exact Option.noConfusion hA
  rw [evaluateBoardA_known hknown] at hA
  have hz : matScore EngineA.PIECE_VALUES b = z := Option.some.inj hA
  rw [evaluateBoardB_eq, matScore_tables, hk, hz]
  ring

/-- C9 as stated is false for the `EngineA` variant: on a board holding a
piece whose type is absent from the value table, its unguarded lookup is
`undefined` and the accumulated total becomes NaN (modelled by `none`), an
ill-defined non-numeric result rather than a contribution of 0. -/
theorem evaluateBoard_unknown_piece_nan :
    (∃ (r c : Fin 8) (p : Piece), unknownBoard r c = some p ∧
      EngineA.PIECE_VALUES p.type = none) ∧
    EngineA.evaluateBoard unknownBoard = none := by
  constructor
  · exact ⟨0, 0, ⟨'z', Color.w⟩, by decide, by decide⟩
  · decide

/-- C9 amended: in the `EngineB` variant, whose lookup is guarded by
`|| 0`, a piece whose type is absent from the value table contributes 0 to
the sum and the result stays a well-defined integer: removing such a piece
leaves the returned score unchanged.  (In the `EngineA` variant the same
board instead evaluates to NaN.) -/
theorem evaluateBoardB_unknown_piece_zero (b : Board) (r c : Fin 8) (p : Piece)
    (hb : b r c = some p) (hnone : EngineB.PIECE_VALUES p.type = none) :
    EngineB.evaluateBoard (removeAt b r c) = EngineB.evaluateBoard b := by
  rw [evaluateBoardB_eq, evaluateBoardB_eq]
  exact matScoreB_removeAt hb hnone

/-! Concrete witnesses instantiating the hypotheses of the claims. -/

theorem minimax_pruning_exact_check :
    EngineA.minimax trivEngine 2 ⟨(), []⟩ JsNum.negInf JsNum.posInf true
      = (toJs (fullMinimax trivEngine 2 () true), ⟨(), []⟩) :=
  minimax_pruning_exact trivEngine (by intro p; cases p; decide) 2 ⟨(), []⟩ true

theorem move_selection_null_spec_check :
    EngineA.getRandomMove demoEngine true 0 = none ∧
    (∃ m ∈ demoEngine.moves false, EngineA.getRandomMove demoEngine false 5 = some m) ∧
    (EngineA.getBestMove demoEngine id ⟨true, []⟩ 3).1 = none ∧
    (∃ m ∈ demoEngine.moves false,
      (EngineA.getBestMove demoEngine id ⟨false, []⟩ 3).1 = some m) := by
  obtain ⟨ha, hb, hc, hd⟩ := move_selection_null_spec demoEngine
  exact ⟨ha true 0 rfl, hb false 5 (by decide), hc id ⟨true, []⟩ 3 rfl,
    hd id ⟨false, []⟩ 3 (List.Perm.refl _) (by decide)⟩

theorem getBestMove_depth_one_maximal_check :
    ∃ m ∈ demoEngine.moves false,
      (EngineA.getBestMove demoEngine id ⟨false, []⟩ 1).1 = some m ∧
      ∀ m2 ∈ demoEngine.moves false,
        childScore demoEngine false m2 ≤ childScore demoEngine false m :=
  getBestMove_depth_one_maximal demoEngine ⟨false, []⟩ id rfl (by decide)
    (List.Perm.refl _) (by decide)

theorem evaluateBoard_material_sum_check :
    known EngineA.PIECE_VALUES kingsPawnBoard ∧
    EngineA.evaluateBoard kingsPawnBoard
      = some (matScore EngineA.PIECE_VALUES kingsPawnBoard) ∧
    bareKings kingsBoard ∧
    (EngineA.evaluateBoard kingsBoard = some 0 ∧ EngineB.evaluateBoard kingsBoard = 0) := by
  obtain ⟨h1, _h2, _h3, _h4, h5⟩ := evaluateBoard_material_sum
  exact ⟨by decide, h1 kingsPawnBoard (by decide), by decide, h5 kingsBoard (by decide)⟩

theorem minimax_base_case_eval_check :
    EngineA.minimax trivEngine 3 ⟨(), []⟩ JsNum.negInf JsNum.posInf true
      = (jsOfEval (EngineA.evaluateBoard (trivEngine.board ())), ⟨(), []⟩) :=
  minimax_base_case_eval trivEngine 3 ⟨(), []⟩ JsNum.negInf JsNum.posInf true
    (Or.inr rfl)

theorem piece_tables_scaled_modulo_kings_check :
    EngineA.evaluateBoard kingsPawnBoard = some 1 ∧
    kingDiff kingsPawnBoard = 0 ∧
    EngineB.evaluateBoard kingsPawnBoard = 10 * 1 :=
  ⟨by decide, by decide,
    piece_tables_scaled_modulo_kings kingsPawnBoard 1 (by decide) (by decide)⟩

theorem evaluateBoardB_unknown_piece_zero_check :
    pawnUnknownBoard 1 1 = some ⟨'z', Color.b⟩ ∧
    EngineB.PIECE_VALUES 'z' = none ∧
    EngineB.evaluateBoard (removeAt pawnUnknownBoard 1 1)
      = EngineB.evaluateBoard pawnUnknownBoard :=
  ⟨by decide, by decide,
    evaluateBoardB_unknown_piece_zero pawnUnknownBoard 1 1 ⟨'z', Color.b⟩
      (by decide) (by decide)⟩

theorem minimax_terminates_with_fuel_check :
    minimaxFuel demoEngine 3 2 ⟨false, []⟩ JsNum.negInf JsNum.posInf true
      = some (EngineA.minimax demoEngine 2 ⟨false, []⟩ JsNum.negInf JsNum.posInf true) :=
  minimax_terminates_with_fuel demoEngine 3 2 ⟨false, []⟩ JsNum.negInf
    JsNum.posInf true (by decide)
